import Mathlib

/-!
Verification of MyGitPuller (`src/pull.py`) against its specification.

The Python program is shallowly embedded: filesystem queries and child
processes become explicit oracles (`FS`, `GitEnv`), and each Python
function becomes a pure Lean function over them.  String helpers that
CPython provides (`str.strip`, substring test, `int()` parsing, `str` of
lists) are re-implemented structurally so that every definition is
executable by kernel reduction.
-/

namespace MyGitPuller

/-! ### Python string primitives, re-implemented structurally -/

/-- Whitespace as `str.strip()` sees it (ASCII part). -/
def pyIsSpace (c : Char) : Bool :=
  c = ' ' || c = '\t' || c = '\n' || c = '\r' || c = '\x0b' || c = '\x0c'

/-- `str.strip()` on the underlying character list. -/
def stripList (l : List Char) : List Char :=
  ((l.dropWhile pyIsSpace).reverse.dropWhile pyIsSpace).reverse

/-- Python `s.strip()`. -/
def pyStrip (s : String) : String :=
  String.mk (stripList s.data)

/-- `needle in haystack` on character lists: some position of `haystack`
starts with `needle`. -/
def listContains (needle : List Char) (haystack : List Char) : Bool :=
  match haystack with
  | [] => needle.isEmpty
  | _ :: t => needle.isPrefixOf haystack || listContains needle t

/-- Python `needle in haystack` for strings. -/
def strContains (needle haystack : String) : Bool :=
  listContains needle.data haystack.data

/-- Python `str(...)` of a list of strings: elements shown with their
`repr` (single quotes), comma-separated, in square brackets. -/
def pyStrList (l : List String) : String :=
  "[" ++ String.intercalate ", " (l.map (fun s => "'" ++ s ++ "'")) ++ "]"

/-! ### Update Executor (`run_git_commands`) -/

/-- The filesystem oracle: which paths are directories.  Paths are plain
strings, as handed to `pathlib.Path`. -/
structure FS where
  isDir : String → Bool

/-- Outcome of one `subprocess.run` call: it either completes (with
captured stdout, stderr and a return code), raises
`subprocess.TimeoutExpired`, or raises some other exception whose
`str()` is recorded. -/
inductive CmdResult where
  | completed (stdout stderr : String) (returncode : Int)
  | timedOut
  | errored (msg : String)
deriving DecidableEq

/-- The child-process oracle: the outcome of running a given command
line in the repository's working directory. -/
def GitEnv := List String → CmdResult

/-- The first command run per repository: `git pull`. -/
def pullCmd : List String := ["git", "pull"]

/-- The second command run per repository:
`git submodule update --init --recursive`. -/
def submoduleCmd : List String :=
  ["git", "submodule", "update", "--init", "--recursive"]

/-- `str(subprocess.TimeoutExpired(cmd, timeout))` as CPython renders
it: `Command '<cmd>' timed out after <timeout> seconds`. -/
def timeoutExpiredStr (cmd : List String) (timeout : Nat) : String :=
  "Command '" ++ pyStrList cmd ++ "' timed out after " ++ toString timeout ++ " seconds"

/-- `repo_path / ".git"` as a path string. -/
def gitSubdir (repo_path : String) : String := repo_path ++ "/.git"

/-- The status string returned for a path that is not a repository. -/
def notARepoStatus : String := "Not a Git repository"

/-- The marker `git pull` prints when there was nothing to merge. -/
def upToDateMarker : String := "Already up to date."

/-- The labeled concatenation of both commands' stripped stdout+stderr,
as built by `run_git_commands` (the submodule block is present only when
its stripped output is non-empty). -/
def combinedOutput (pull_output submodule_output : String) : String :=
  "--- git pull ---\n" ++ pyStrip pull_output
    ++ (if pyStrip submodule_output ≠ "" then
          "\n--- submodules ---\n" ++ pyStrip submodule_output
        else "")

/-- `run_git_commands` from `src/pull.py`.  Returns the `(repo, status,
detail)` triple together with the list of command lines actually
handed to `subprocess.run`, in order (the trace lets us state which
commands were spawned). -/
def run_git_commands (fs : FS) (env : GitEnv) (repo_path : String)
    (timeout : Nat := 60) : (String × String × String) × List (List String) :=
  if ¬ fs.isDir (gitSubdir repo_path) then
    ((repo_path, notARepoStatus, ""), [])
  else
    match env pullCmd with
    | .timedOut =>
        ((repo_path, "Timeout",
          "Command timed out: " ++ timeoutExpiredStr pullCmd timeout), [pullCmd])
    | .errored msg =>
        ((repo_path, "Error", "An unexpected error occurred: " ++ msg), [pullCmd])
    | .completed pout perr prc =>
      let pull_output := pout ++ perr
      match env submoduleCmd with
      | .timedOut =>
          ((repo_path, "Timeout",
            "Command timed out: " ++ timeoutExpiredStr submoduleCmd timeout),
           [pullCmd, submoduleCmd])
      | .errored msg =>
          ((repo_path, "Error", "An unexpected error occurred: " ++ msg),
           [pullCmd, submoduleCmd])
      | .completed sout serr src =>
        let submodule_output := sout ++ serr
        let is_pull_ok := prc = 0
        let is_submodule_ok := src = 0
        if ¬ is_pull_ok ∨ ¬ is_submodule_ok then
          ((repo_path, "Failed", combinedOutput pull_output submodule_output),
           [pullCmd, submoduleCmd])
        else
          if strContains upToDateMarker pull_output ∧ pyStrip submodule_output = "" then
            ((repo_path, "Up-to-date", ""), [pullCmd, submoduleCmd])
          else
            ((repo_path, "Success", combinedOutput pull_output submodule_output),
             [pullCmd, submoduleCmd])

/-! ### Repository Cache (`load_repositories_from_cache`) -/

/-- The validity test `load_repositories_from_cache` applies to each
cached path string: `repo_path.is_dir() and (repo_path / ".git").is_dir()`. -/
def validCachedRepo (fs : FS) (p : String) : Bool :=
  fs.isDir p && fs.isDir (gitSubdir p)

/-- Result of a cache load: the returned repository list, and the list
written back to the store when stale entries were pruned (`none` when no
rewrite was attempted). -/
structure LoadResult where
  repos : List String
  rewritten : Option (List String)
deriving DecidableEq

/-- `load_repositories_from_cache` from `src/pull.py`.  The cache-file
read is modelled by its outcome: `.error e` when `json.load` raised
`JSONDecodeError`/`IOError`, `.ok l` for a parsed list of path strings. -/
def load_repositories_from_cache (fs : FS) (cache : Except String (List String)) :
    LoadResult :=
  match cache with
  | .error _ => ⟨[], none⟩
  | .ok repo_paths_str =>
    let valid_repos := repo_paths_str.filter (validCachedRepo fs)
    if valid_repos.length ≠ repo_paths_str.length then
      ⟨valid_repos, some valid_repos⟩
    else
      ⟨valid_repos, none⟩

/-- The cache store's content after one load: the rewritten list when
the load pruned (and rewrote), the unchanged content otherwise. -/
def storeAfterLoad (fs : FS) (cache : Except String (List String)) :
    Except String (List String) :=
  match (load_repositories_from_cache fs cache).rewritten with
  | some l => .ok l
  | none => cache

/-! ### Repository Locator (`find_and_cache_repositories`) -/

/-- A finite filesystem tree: a directory with a (possibly duplicated,
arbitrarily ordered) list of children, or a plain file. -/
inductive Entry where
  | dir (nm : String) (children : List Entry)
  | file (nm : String)

instance : Inhabited Entry := ⟨Entry.file ""⟩

/-- `p.name` for a tree entry. -/
def Entry.name : Entry → String
  | .dir nm _ => nm
  | .file nm => nm

/-- `p.is_dir()` for a tree entry. -/
def Entry.isDir : Entry → Bool
  | .dir _ _ => true
  | .file _ => false

/-- `p.iterdir()`: immediate children of a directory entry. -/
def Entry.childrenOf : Entry → List Entry
  | .dir _ cs => cs
  | .file _ => []

mutual

/-- Every entry strictly beneath `e`, paired with its path relative to
`e` (a non-empty list of component names). -/
def subEntries : Entry → List (List String × Entry)
  | .file _ => []
  | .dir _ cs => subEntriesOfList cs

/-- `subEntries` over a child list: each child itself, then everything
beneath it. -/
def subEntriesOfList : List Entry → List (List String × Entry)
  | [] => []
  | c :: rest =>
      ([c.name], c) :: ((subEntries c).map (fun q => (c.name :: q.1, q.2))
        ++ subEntriesOfList rest)

end

/-- `directory.rglob(".git")` filtered by `git_dir.is_dir()`: the
relative paths (from `d`) of all directory entries named `.git` at any
depth beneath `d`, including `d`'s own children. -/
def gitDirsUnder (d : Entry) : List (List String) :=
  (subEntries d).filterMap
    (fun q => if q.2.name = ".git" ∧ q.2.isDir then some q.1 else none)

/-- A directory entry that directly contains a `.git` directory, i.e. a
repository root. -/
def hasGitDirChild (e : Entry) : Bool :=
  e.childrenOf.any (fun g => g.name = ".git" && g.isDir)

/-- `"/".join`: the string `pathlib` renders for a relative path given
by its components. -/
def joinPath : List String → String
  | [] => ""
  | [x] => x
  | x :: rest => x ++ "/" ++ joinPath rest

/-- Lexicographic comparison of character lists by code point — Python's
string `<=`. -/
def charListLe : List Char → List Char → Bool
  | [], _ => true
  | _ :: _, [] => false
  | a :: as, b :: bs => if a < b then true else if b < a then false else charListLe as bs

/-- The order `sorted` uses on `pathlib` paths: their rendered strings
compared lexicographically. -/
def pathLe (a b : List String) : Prop :=
  charListLe (joinPath a).data (joinPath b).data = true

instance : DecidableRel pathLe := fun a b => by
  unfold pathLe; infer_instance

/-- The raw `repos` list built by `find_and_cache_repositories`: for
each immediate child directory of the root, the parent of every `.git`
directory found beneath it.  Paths are component lists relative to
`root`. -/
def scannedRepos (root : Entry) : List (List String) :=
  (root.childrenOf.filter Entry.isDir).flatMap
    (fun d => (gitDirsUnder d).map (fun q => d.name :: q.dropLast))

/-- The pure part of `find_and_cache_repositories` from `src/pull.py`
(the cache write is reported but does not affect the returned list):
scan each immediate child directory of the root for `.git` directories,
collect their parents, deduplicate (`set`) and sort. -/
def find_and_cache_repositories (root : Entry) : List (List String) :=
  List.insertionSort pathLe (scannedRepos root).dedup

/-! ### CLI validation (`positive_int_range` and `main`'s checks) -/

/-- Python `int(s)` for our purposes: optional surrounding whitespace,
optional sign, at least one decimal digit. -/
def digitsToNatAux : Nat → List Char → Option Nat
  | acc, [] => some acc
  | acc, c :: rest =>
      if c.isDigit then digitsToNatAux (acc * 10 + (c.toNat - '0'.toNat)) rest
      else none

/-- A non-empty all-digit character list read as a decimal numeral. -/
def digitsToNat : List Char → Option Nat
  | [] => none
  | l => digitsToNatAux 0 l

/-- Python `int(str)` (underscore separators aside). -/
def pyInt (s : String) : Option Int :=
  match stripList s.data with
  | '+' :: rest => (digitsToNat rest).map Int.ofNat
  | '-' :: rest => (digitsToNat rest).map (fun n => -(n : Int))
  | rest => (digitsToNat rest).map Int.ofNat

/-- The checker closure produced by `positive_int_range(min_val,
max_val)`, applied to the command-line string: `ArgumentTypeError`
messages become `.error`. -/
def positive_int_range (min_val max_val : Int) (value_str : String) :
    Except String Int :=
  match pyInt value_str with
  | none =>
      .error ("invalid literal for int() with base 10: '" ++ value_str ++ "'")
  | some value =>
      if ¬ (min_val ≤ value ∧ value ≤ max_val) then
        .error ("Value must be between " ++ toString min_val ++ " and "
          ++ toString max_val ++ ".")
      else
        .ok value

/-- How `main` disposes of a `--max-workers` value before any repository
work: rejected by `argparse` (exit code 2), rejected by the `< 1` check
(exit 1), rejected by the CPU-capacity check (exit 1, with the warning),
or accepted. -/
inductive MainOutcome where
  | parseError (msg : String)
  | workersBelowOne
  | overCapacity (workers : Int) (cpu : Nat)
  | proceed (workers : Int)
deriving DecidableEq

/-- The over-capacity warning `main` prints before exiting 1. -/
def overCapacityWarning (w : Int) (cpu : Nat) : String :=
  "Warning: --max-workers is set to " ++ toString w
    ++ ", which exceeds the number of available CPU cores (" ++ toString cpu
    ++ "). This may lead to suboptimal performance."

/-- `main`'s argument validation from `src/pull.py`: `argparse` applies
`positive_int_range(1, 64)` to the `--max-workers` string; on success
`main` then checks `< 1` and `> os.cpu_count()` in that order. -/
def mainDecision (cpu : Nat) (max_workers_str : String) : MainOutcome :=
  match positive_int_range 1 64 max_workers_str with
  | .error msg => .parseError msg
  | .ok w =>
      if w < 1 then .workersBelowOne
      else if w > (cpu : Int) then .overCapacity w cpu
      else .proceed w

/-- The process exit code each outcome produces (`none`: the run
continues into repository work). `argparse` errors exit with code 2. -/
def usageExitCode : MainOutcome → Option Nat
  | .parseError _ => some 2
  | .workersBelowOne => some 1
  | .overCapacity _ _ => some 1
  | .proceed _ => none

/-- Whether the outcome prints the over-capacity warning. -/
def printsOverCapacityWarning : MainOutcome → Bool
  | .overCapacity _ _ => true
  | _ => false

/-! ### Result reporting (`main`'s consumer loop) -/

/-- The separator line `print_separator` emits. -/
def separatorLine : String := String.mk (List.replicate 60 '-')

/-- The closing line of every run. -/
def allTasksCompletedLine : String := "All tasks completed."

/-- The lines printed for one completed result (`rel` renders the
repository path relative to the script directory): nothing for
`Up-to-date`, otherwise the icon/progress header, the status line, the
detail block when non-empty, and a separator. -/
def renderResult (rel : String → String) (total completed : Nat)
    (r : String × String × String) : List String :=
  if r.2.1 = "Up-to-date" then []
  else
    let icon := if r.2.1 = "Success" then "✅"
      else if r.2.1 = "Timeout" then "⏰" else "❌"
    [icon ++ " [" ++ toString completed ++ "/" ++ toString total
        ++ "] Repository: " ++ rel r.1,
     "Status: " ++ r.2.1]
    ++ (if r.2.2 ≠ "" then ["Details:", r.2.2] else [])
    ++ [separatorLine]

/-- `main`'s `as_completed` consumer loop over the results in completion
order, followed by the unconditional closing line. -/
def reportLoop (rel : String → String) (total : Nat) :
    Nat → List (String × String × String) → List String
  | _, [] => [allTasksCompletedLine]
  | completed, r :: rest =>
      renderResult rel total (completed + 1) r ++ reportLoop rel total (completed + 1) rest

/-! ### Supporting lemmas -/

theorem listContains_correct (n h : List Char) :
    listContains n h = true ↔ n <:+: h := by
  induction h with
  | nil =>
      simp [listContains, List.isEmpty_iff]
  | cons x t ih =>
      rw [listContains, Bool.or_eq_true, List.isPrefixOf_iff_prefix, ih,
        List.infix_cons_iff]

theorem strContains_correct (n s : String) :
    strContains n s = true ↔ n.data <:+: s.data :=
  listContains_correct n.data s.data

theorem strContains_refl (n : String) : strContains n n = true := by
  rw [strContains_correct]

theorem strContains_append_left (n a b : String) (h : strContains n a = true) :
    strContains n (a ++ b) = true := by
  rw [strContains_correct] at h ⊢
  rw [String.data_append]
  exact h.trans ⟨[], b.data, by simp⟩

theorem strContains_append_right (n a b : String) (h : strContains n b = true) :
    strContains n (a ++ b) = true := by
  rw [strContains_correct] at h ⊢
  rw [String.data_append]
  exact h.trans ⟨a.data, [], by simp⟩

/-! ### Concrete oracles used by the witnesses -/

/-- A filesystem on which every path is a directory. -/
def fsYes : FS := ⟨fun _ => true⟩

/-- A filesystem with no directories at all. -/
def fsNo : FS := ⟨fun _ => false⟩

/-- Both commands succeed; the pull prints the no-op marker and the
submodule command prints nothing. -/
def envUpToDate : GitEnv := fun cmd =>
  if cmd = pullCmd then CmdResult.completed "Already up to date.\n" "" 0
  else CmdResult.completed "" "" 0

/-- The pull times out. -/
def envPullTimeout : GitEnv := fun cmd =>
  if cmd = pullCmd then CmdResult.timedOut else CmdResult.completed "" "" 0

/-- The pull exits non-zero. -/
def envPullFails : GitEnv := fun cmd =>
  if cmd = pullCmd then CmdResult.completed "fatal: not possible\n" "error text\n" 1
  else CmdResult.completed "" "" 0

/-! ### C5: paths without a `.git` directory -/

/-- C5: for every path whose `.git` child is not a directory, the update
operation returns `(repo, "Not a Git repository", "")` and spawns no
external command. -/
theorem run_git_commands_not_a_repo (fs : FS) (env : GitEnv) (repo : String)
    (t : Nat) (h : fs.isDir (gitSubdir repo) = false) :
    run_git_commands fs env repo t = ((repo, notARepoStatus, ""), []) := by
  simp [run_git_commands, h]

/-- C5 witness: a concrete filesystem without the metadata directory. -/
theorem run_git_commands_not_a_repo_witness :
    run_git_commands fsNo envUpToDate "some/path" 60 =
      (("some/path", notARepoStatus, ""), []) :=
  run_git_commands_not_a_repo fsNo envUpToDate "some/path" 60 rfl

/-! ### C2: pull timeout -/

/-- C2: when the pull command times out, the update returns `Timeout`
with a detail naming the timed-out command, and the submodule command is
never started (it is absent from the spawn trace). -/
theorem run_git_commands_pull_timeout (fs : FS) (env : GitEnv) (repo : String)
    (t : Nat) (hgit : fs.isDir (gitSubdir repo) = true)
    (htimeout : env pullCmd = CmdResult.timedOut) :
    run_git_commands fs env repo t =
      ((repo, "Timeout", "Command timed out: " ++ timeoutExpiredStr pullCmd t),
        [pullCmd]) ∧
    strContains (pyStrList pullCmd) (run_git_commands fs env repo t).1.2.2 = true ∧
    submoduleCmd ∉ (run_git_commands fs env repo t).2 := by
  have hrun : run_git_commands fs env repo t =
      ((repo, "Timeout", "Command timed out: " ++ timeoutExpiredStr pullCmd t),
        [pullCmd]) := by
    simp [run_git_commands, hgit, htimeout]
  refine ⟨hrun, ?_, ?_⟩
  · rw [hrun]
    exact strContains_append_right _ _ _ (by
      unfold timeoutExpiredStr
      exact strContains_append_left _ _ _ (strContains_append_left _ _ _
        (strContains_append_left _ _ _
          (strContains_append_right _ _ _ (strContains_refl _)))))
  · rw [hrun]
    simp [pullCmd, submoduleCmd]

/-- C2 witness: a concrete environment whose pull times out. -/
theorem run_git_commands_pull_timeout_witness :
    run_git_commands fsYes envPullTimeout "repo" 60 =
      (("repo", "Timeout", "Command timed out: " ++ timeoutExpiredStr pullCmd 60),
        [pullCmd]) ∧
    strContains (pyStrList pullCmd) (run_git_commands fsYes envPullTimeout "repo" 60).1.2.2 = true ∧
    submoduleCmd ∉ (run_git_commands fsYes envPullTimeout "repo" 60).2 :=
  run_git_commands_pull_timeout fsYes envPullTimeout "repo" 60 rfl rfl

/-! ### C1: classification when both commands exit zero -/

/-- C1: when both commands exit zero, the update returns `Up-to-date`
with empty detail exactly when the pull's combined stdout+stderr
contains `Already up to date.` and the submodule command's combined
output is empty modulo whitespace; in every other zero-exit case the
status is `Success`. -/
theorem run_git_commands_zero_exit_classification (fs : FS) (env : GitEnv)
    (repo : String) (t : Nat) (pout perr sout serr : String)
    (hgit : fs.isDir (gitSubdir repo) = true)
    (hpull : env pullCmd = CmdResult.completed pout perr 0)
    (hsub : env submoduleCmd = CmdResult.completed sout serr 0) :
    (((run_git_commands fs env repo t).1.2.1 = "Up-to-date" ∧
        (run_git_commands fs env repo t).1.2.2 = "") ↔
      (strContains upToDateMarker (pout ++ perr) = true ∧
        pyStrip (sout ++ serr) = "")) ∧
    (¬ (strContains upToDateMarker (pout ++ perr) = true ∧
        pyStrip (sout ++ serr) = "") →
      (run_git_commands fs env repo t).1.2.1 = "Success") := by
  by_cases hc : strContains upToDateMarker (pout ++ perr) = true ∧
      pyStrip (sout ++ serr) = ""
  · have hrun : run_git_commands fs env repo t =
        ((repo, "Up-to-date", ""), [pullCmd, submoduleCmd]) := by
      simp [run_git_commands, hgit, hpull, hsub, hc]
    rw [hrun]
    simp [hc]
  · have hrun : run_git_commands fs env repo t =
        ((repo, "Success", combinedOutput (pout ++ perr) (sout ++ serr)),
          [pullCmd, submoduleCmd]) := by
      simp [run_git_commands, hgit, hpull, hsub, hc]
    rw [hrun]
    simp [hc]

/-- C1 witness: a concrete up-to-date pull with silent submodule sync. -/
theorem run_git_commands_zero_exit_classification_witness :
    (((run_git_commands fsYes envUpToDate "repo" 60).1.2.1 = "Up-to-date" ∧
        (run_git_commands fsYes envUpToDate "repo" 60).1.2.2 = "") ↔
      (strContains upToDateMarker ("Already up to date.\n" ++ "") = true ∧
        pyStrip ("" ++ "") = "")) ∧
    (¬ (strContains upToDateMarker ("Already up to date.\n" ++ "") = true ∧
        pyStrip ("" ++ "") = "") →
      (run_git_commands fsYes envUpToDate "repo" 60).1.2.1 = "Success") :=
  run_git_commands_zero_exit_classification fsYes envUpToDate "repo" 60
    "Already up to date.\n" "" "" "" rfl rfl rfl

/-! ### C4: a non-zero exit code from either command -/

/-- C4: when both commands run to completion and at least one exits
non-zero, the update returns `Failed`, and the detail is the labeled
concatenation of both commands' (stripped) stdout+stderr: it carries the
pull label and the pull output, and — whenever the submodule command
produced non-whitespace output — the submodule label and that output. -/
theorem run_git_commands_failed (fs : FS) (env : GitEnv) (repo : String)
    (t : Nat) (pout perr sout serr : String) (prc src : Int)
    (hgit : fs.isDir (gitSubdir repo) = true)
    (hpull : env pullCmd = CmdResult.completed pout perr prc)
    (hsub : env submoduleCmd = CmdResult.completed sout serr src)
    (hfail : prc ≠ 0 ∨ src ≠ 0) :
    (run_git_commands fs env repo t).1.2.1 = "Failed" ∧
    (run_git_commands fs env repo t).1.2.2 =
      combinedOutput (pout ++ perr) (sout ++ serr) ∧
    strContains "--- git pull ---" (run_git_commands fs env repo t).1.2.2 = true ∧
    strContains (pyStrip (pout ++ perr)) (run_git_commands fs env repo t).1.2.2 = true ∧
    (pyStrip (sout ++ serr) ≠ "" →
      strContains "--- submodules ---" (run_git_commands fs env repo t).1.2.2 = true ∧
      strContains (pyStrip (sout ++ serr)) (run_git_commands fs env repo t).1.2.2 = true) := by
  have hrun : run_git_commands fs env repo t =
      ((repo, "Failed", combinedOutput (pout ++ perr) (sout ++ serr)),
        [pullCmd, submoduleCmd]) := by
    simp only [run_git_commands, hgit, hpull, hsub]
    rw [if_neg (by simp), if_pos hfail]
  rw [hrun]
  refine ⟨rfl, rfl, ?_, ?_, ?_⟩
  · unfold combinedOutput
    exact strContains_append_left _ _ _ (strContains_append_left _ _ _
      (by decide))
  · unfold combinedOutput
    exact strContains_append_left _ _ _
      (strContains_append_right _ _ _ (strContains_refl _))
  · intro hne
    unfold combinedOutput
    rw [if_pos hne]
    constructor
    · exact strContains_append_right _ _ _
        (strContains_append_left _ _ _ (by decide))
    · exact strContains_append_right _ _ _
        (strContains_append_right _ _ _ (strContains_refl _))

/-- C4 witness: a concrete failing pull. -/
theorem run_git_commands_failed_witness :
    (run_git_commands fsYes envPullFails "repo" 60).1.2.1 = "Failed" ∧
    (run_git_commands fsYes envPullFails "repo" 60).1.2.2 =
      combinedOutput ("fatal: not possible\n" ++ "error text\n") ("" ++ "") ∧
    strContains "--- git pull ---"
      (run_git_commands fsYes envPullFails "repo" 60).1.2.2 = true ∧
    strContains (pyStrip ("fatal: not possible\n" ++ "error text\n"))
      (run_git_commands fsYes envPullFails "repo" 60).1.2.2 = true ∧
    (pyStrip ("" ++ "") ≠ "" →
      strContains "--- submodules ---"
        (run_git_commands fsYes envPullFails "repo" 60).1.2.2 = true ∧
      strContains (pyStrip ("" ++ ""))
        (run_git_commands fsYes envPullFails "repo" 60).1.2.2 = true) :=
  run_git_commands_failed fsYes envPullFails "repo" 60
    "fatal: not possible\n" "error text\n" "" "" 1 0 rfl rfl rfl (Or.inl (by decide))

/-! ### C6, C7, C10: cache load -/

theorem load_repos_eq_filter (fs : FS) (l : List String) :
    (load_repositories_from_cache fs (.ok l)).repos =
      l.filter (validCachedRepo fs) := by
  unfold load_repositories_from_cache
  by_cases h : (l.filter (validCachedRepo fs)).length ≠ l.length <;> simp [h]

theorem load_rewritten_eq (fs : FS) (l : List String) :
    (load_repositories_from_cache fs (.ok l)).rewritten =
      if (l.filter (validCachedRepo fs)).length ≠ l.length then
        some (l.filter (validCachedRepo fs))
      else none := by
  unfold load_repositories_from_cache
  by_cases h : (l.filter (validCachedRepo fs)).length ≠ l.length <;> simp [h]

/-- C6: on a cache load every returned entry passes the repository
check; every stored entry failing the check is absent from the returned
list and from any rewritten store; and the store is rewritten exactly
when at least one stored entry failed the check.  An unreadable or
malformed store loads as the empty list with no rewrite. -/
theorem load_repositories_from_cache_validates (fs : FS) (l : List String)
    (msg : String) :
    (∀ p ∈ (load_repositories_from_cache fs (.ok l)).repos,
        validCachedRepo fs p = true) ∧
    (∀ p ∈ l, validCachedRepo fs p = false →
        p ∉ (load_repositories_from_cache fs (.ok l)).repos ∧
        ∀ l', (load_repositories_from_cache fs (.ok l)).rewritten = some l' →
          p ∉ l') ∧
    ((load_repositories_from_cache fs (.ok l)).rewritten.isSome ↔
        ∃ p ∈ l, validCachedRepo fs p = false) ∧
    (load_repositories_from_cache fs (.error msg)).repos = [] ∧
    (load_repositories_from_cache fs (.error msg)).rewritten = none := by
  refine ⟨?_, ?_, ?_, rfl, rfl⟩
  · intro p hp
    rw [load_repos_eq_filter] at hp
    exact (List.mem_filter.mp hp).2
  · intro p _ hbad
    constructor
    · rw [load_repos_eq_filter]
      intro hmem
      rw [List.mem_filter, hbad] at hmem
      exact Bool.false_ne_true hmem.2
    · intro l' hl'
      rw [load_rewritten_eq] at hl'
      by_cases h : (l.filter (validCachedRepo fs)).length ≠ l.length
      · rw [if_pos h] at hl'
        cases hl'
        intro hmem
        rw [List.mem_filter, hbad] at hmem
        exact Bool.false_ne_true hmem.2
      · rw [if_neg h] at hl'
        exact absurd hl' (by simp)
  · rw [load_rewritten_eq]
    by_cases h : (l.filter (validCachedRepo fs)).length ≠ l.length
    · rw [if_pos h]
      simp only [Option.isSome_some, true_iff]
      by_contra hno
      push_neg at hno
      exact h (List.filter_length_eq_length.mpr (by
        intro a ha
        cases hval : validCachedRepo fs a
        · exact absurd hval (hno a ha)
        · rfl))
    · rw [if_neg h]
      simp only [Option.isSome_none, Bool.false_eq_true, false_iff]
      push_neg at h
      rintro ⟨p, hp, hbad⟩
      have := List.filter_length_eq_length.mp h p hp
      rw [hbad] at this
      exact Bool.false_ne_true this

/-- C7: loading twice with the filesystem unchanged returns the same
repository list both times, and the second load performs no rewrite. -/
theorem load_repositories_from_cache_idempotent (fs : FS)
    (cache : Except String (List String)) :
    (load_repositories_from_cache fs (storeAfterLoad fs cache)).repos =
      (load_repositories_from_cache fs cache).repos ∧
    (load_repositories_from_cache fs (storeAfterLoad fs cache)).rewritten = none := by
  cases cache with
  | error msg =>
      constructor <;> rfl
  | ok l =>
      unfold storeAfterLoad
      rw [load_rewritten_eq]
      by_cases h : (l.filter (validCachedRepo fs)).length ≠ l.length
      · rw [if_pos h]
        have hff : (l.filter (validCachedRepo fs)).filter (validCachedRepo fs) =
            l.filter (validCachedRepo fs) := by
          rw [List.filter_filter]
          simp
        constructor
        · rw [load_repos_eq_filter, load_repos_eq_filter, hff]
        · rw [load_rewritten_eq, hff, if_neg (by simp)]
      · rw [if_neg h]
        refine ⟨rfl, ?_⟩
        rw [load_rewritten_eq, if_neg h]

/-- C10: the cache load is an order-preserving filter of the stored
entries: the returned list is a subsequence of the store in stored
order, membership is exactly "stored and valid", multiplicities of valid
entries are preserved (so duplicates survive), and any rewritten store
is that same filtered list. -/
theorem load_repositories_from_cache_order_preserving (fs : FS) (l : List String) :
    (load_repositories_from_cache fs (.ok l)).repos.Sublist l ∧
    (∀ p, p ∈ (load_repositories_from_cache fs (.ok l)).repos ↔
        p ∈ l ∧ validCachedRepo fs p = true) ∧
    (∀ p, validCachedRepo fs p = true →
        (load_repositories_from_cache fs (.ok l)).repos.count p = l.count p) ∧
    (∀ l', (load_repositories_from_cache fs (.ok l)).rewritten = some l' →
        l' = (load_repositories_from_cache fs (.ok l)).repos) := by
  rw [load_repos_eq_filter]
  refine ⟨List.filter_sublist l, ?_, ?_, ?_⟩
  · intro p
    exact List.mem_filter
  · intro p hp
    exact List.count_filter hp
  · intro l' hl'
    rw [load_rewritten_eq] at hl'
    by_cases h : (l.filter (validCachedRepo fs)).length ≠ l.length
    · rw [if_pos h] at hl'
      cases hl'
      rfl
    · rw [if_neg h] at hl'
      exact absurd hl' (by simp)

/-! ### C3: worker-count validation -/

theorem positive_int_range_ok_bounds (min_val max_val : Int) (s : String)
    (w : Int) (h : positive_int_range min_val max_val s = .ok w) :
    min_val ≤ w ∧ w ≤ max_val := by
  unfold positive_int_range at h
  split at h
  · exact absurd h (by simp)
  · split at h
    · exact absurd h (by simp)
    · rename_i hcond
      cases h
      rw [not_not] at hcond
      exact hcond

theorem mainDecision_of_ok (cpu : Nat) (s : String) (w : Int)
    (h : positive_int_range 1 64 s = .ok w) :
    mainDecision cpu s =
      if w < 1 then MainOutcome.workersBelowOne
      else if w > (cpu : Int) then MainOutcome.overCapacity w cpu
      else MainOutcome.proceed w := by
  unfold mainDecision
  rw [h]

theorem mainDecision_of_error (cpu : Nat) (s : String) (msg : String)
    (h : positive_int_range 1 64 s = .error msg) :
    mainDecision cpu s = MainOutcome.parseError msg := by
  unfold mainDecision
  rw [h]

/-- C3 counterexample: `--max-workers 99` is rejected by the `argparse`
type checker (its value lies outside `[1, 64]`), so on an 8-core machine
the run exits with the parser's usage code 2 — not 1 — and the
over-capacity warning is never printed. -/
theorem max_workers_99_rejected_at_parse_time :
    mainDecision 8 "99" =
      MainOutcome.parseError "Value must be between 1 and 64." ∧
    usageExitCode (mainDecision 8 "99") = some 2 ∧
    usageExitCode (mainDecision 8 "99") ≠ some 1 ∧
    printsOverCapacityWarning (mainDecision 8 "99") = false := by
  refine ⟨by decide, by decide, by decide, by decide⟩

/-- C3 as amended: a `--max-workers` value exceeding the detected CPU
count is always a hard usage error with non-zero exit and no repository
work — with exit code 1 and the over-capacity warning when the value
passed the parser's `[1, 64]` range (e.g. 9 workers on an 8-core
machine), and with the parser's exit code 2 when it did not (e.g. 99).
Repository work proceeds only for worker counts within the CPU count. -/
theorem workers_over_cpu_is_hard_error (cpu : Nat) (s : String) (w : Int) :
    (positive_int_range 1 64 s = .ok w → (cpu : Int) < w →
      mainDecision cpu s = MainOutcome.overCapacity w cpu ∧
      usageExitCode (mainDecision cpu s) = some 1 ∧
      printsOverCapacityWarning (mainDecision cpu s) = true) ∧
    (∀ msg, positive_int_range 1 64 s = .error msg →
      mainDecision cpu s = MainOutcome.parseError msg ∧
      usageExitCode (mainDecision cpu s) = some 2) ∧
    (∀ w', mainDecision cpu s = MainOutcome.proceed w' →
      w' ≤ (cpu : Int)) := by
  refine ⟨?_, ?_, ?_⟩
  · intro hok hover
    have hb := positive_int_range_ok_bounds 1 64 s w hok
    have hdec : mainDecision cpu s = MainOutcome.overCapacity w cpu := by
      rw [mainDecision_of_ok cpu s w hok, if_neg (by omega), if_pos hover]
    exact ⟨hdec, by rw [hdec]; rfl, by rw [hdec]; rfl⟩
  · intro msg herr
    have hdec : mainDecision cpu s = MainOutcome.parseError msg :=
      mainDecision_of_error cpu s msg herr
    exact ⟨hdec, by rw [hdec]; rfl⟩
  · intro w' hw'
    cases hok : positive_int_range 1 64 s with
    | error msg =>
        rw [mainDecision_of_error cpu s msg hok] at hw'
        exact absurd hw' (by simp)
    | ok v =>
        rw [mainDecision_of_ok cpu s v hok] at hw'
        by_cases h1 : v < 1
        · rw [if_pos h1] at hw'; exact absurd hw' (by simp)
        · rw [if_neg h1] at hw'
          by_cases h2 : v > (cpu : Int)
          · rw [if_pos h2] at hw'; exact absurd hw' (by simp)
          · rw [if_neg h2] at hw'
            cases hw'
            omega

/-- C3 amended-claim witness: 9 workers on an 8-core machine. -/
theorem workers_over_cpu_is_hard_error_witness :
    (positive_int_range 1 64 "9" = .ok 9 → (8 : Int) < 9 →
      mainDecision 8 "9" = MainOutcome.overCapacity 9 8 ∧
      usageExitCode (mainDecision 8 "9") = some 1 ∧
      printsOverCapacityWarning (mainDecision 8 "9") = true) ∧
    (∀ msg, positive_int_range 1 64 "9" = .error msg →
      mainDecision 8 "9" = MainOutcome.parseError msg ∧
      usageExitCode (mainDecision 8 "9") = some 2) ∧
    (∀ w', mainDecision 8 "9" = MainOutcome.proceed w' →
      w' ≤ (8 : Int)) :=
  workers_over_cpu_is_hard_error 8 "9" 9

/-! ### C9: per-repository totality and the closing line -/

/-- C9: the update operation always returns a result triple for the
requested repository with one of the six closed statuses (exceptions
are mapped to `Timeout`/`Error` rather than propagating), and the
reporting loop, whatever the completed results are, ends with the
unconditional `All tasks completed.` line after consuming them all. -/
theorem update_is_total_and_run_completes :
    (∀ (fs : FS) (env : GitEnv) (repo : String) (t : Nat),
      (run_git_commands fs env repo t).1.1 = repo ∧
      (run_git_commands fs env repo t).1.2.1 ∈
        [notARepoStatus, "Failed", "Up-to-date", "Success", "Timeout", "Error"]) ∧
    (∀ (rel : String → String) (total completed : Nat)
        (results : List (String × String × String)),
      ∃ ls, reportLoop rel total completed results =
        ls ++ [allTasksCompletedLine]) := by
  constructor
  · intro fs env repo t
    simp only [run_git_commands]
    repeat' split
    all_goals exact ⟨rfl, by simp⟩
  · intro rel total completed results
    induction results generalizing completed with
    | nil => exact ⟨[], rfl⟩
    | cons r rest ih =>
        obtain ⟨ls, hls⟩ := ih (completed + 1)
        exact ⟨renderResult rel total (completed + 1) r ++ ls, by
          rw [reportLoop, hls, List.append_assoc]⟩

/-! ### C8: the scan -/

theorem mem_subEntriesOfList (cs : List Entry) (pe : List String × Entry) :
    pe ∈ subEntriesOfList cs ↔
      ∃ c ∈ cs, pe = ([c.name], c) ∨
        ∃ q ∈ subEntries c, pe = (c.name :: q.1, q.2) := by
  induction cs with
  | nil => simp [subEntriesOfList]
  | cons c rest ih =>
      simp only [subEntriesOfList, List.mem_cons, List.mem_append, List.mem_map, ih]
      constructor
      · rintro (h | (⟨q, hq, rfl⟩ | ⟨c', hc', h⟩))
        · exact ⟨c, Or.inl rfl, Or.inl h⟩
        · exact ⟨c, Or.inl rfl, Or.inr ⟨q, hq, rfl⟩⟩
        · exact ⟨c', Or.inr hc', h⟩
      · rintro ⟨c', hc' | hc', h | ⟨q, hq, h⟩⟩
        · subst hc'; exact Or.inl h
        · subst hc'; exact Or.inr (Or.inl ⟨q, hq, h.symm⟩)
        · exact Or.inr (Or.inr ⟨c', hc', Or.inl h⟩)
        · exact Or.inr (Or.inr ⟨c', hc', Or.inr ⟨q, hq, h⟩⟩)

theorem mem_subEntries (e : Entry) (pe : List String × Entry) :
    pe ∈ subEntries e ↔
      ∃ c ∈ e.childrenOf, pe = ([c.name], c) ∨
        ∃ q ∈ subEntries c, pe = (c.name :: q.1, q.2) := by
  cases e with
  | dir nm cs => exact mem_subEntriesOfList cs pe
  | file nm => simp [subEntries, Entry.childrenOf]

theorem subEntries_path_ne_nil (e : Entry) (pe : List String × Entry)
    (h : pe ∈ subEntries e) : pe.1 ≠ [] := by
  rcases (mem_subEntries e pe).mp h with ⟨c, _, h' | ⟨q, _, h'⟩⟩ <;>
    rw [h'] <;> simp

theorem mem_subEntries_of_child (e g : Entry) (h : g ∈ e.childrenOf) :
    ([g.name], g) ∈ subEntries e :=
  (mem_subEntries e _).mpr ⟨g, h, Or.inl rfl⟩

theorem mem_subEntries_cons (e c : Entry) (hc : c ∈ e.childrenOf)
    (q : List String × Entry) (hq : q ∈ subEntries c) :
    (c.name :: q.1, q.2) ∈ subEntries e :=
  (mem_subEntries e _).mpr ⟨c, hc, Or.inr ⟨q, hq, rfl⟩⟩

theorem isDir_of_mem_childrenOf (g e : Entry) (h : g ∈ e.childrenOf) :
    e.isDir = true := by
  cases e with
  | dir nm cs => rfl
  | file nm => simp [Entry.childrenOf] at h

theorem isDir_of_mem_subEntries (d : Entry) (pe : List String × Entry)
    (h : pe ∈ subEntries d) : d.isDir = true := by
  cases d with
  | dir nm cs => rfl
  | file nm => simp [subEntries] at h

theorem subEntries_trans (p₂ : List String) (e₂ e₁ : Entry)
    (hp₂ : (p₂, e₂) ∈ subEntries e₁) :
    ∀ (p₁ : List String) (d : Entry), (p₁, e₁) ∈ subEntries d →
      (p₁ ++ p₂, e₂) ∈ subEntries d := by
  intro p₁
  induction p₁ with
  | nil => intro d hd; exact absurd rfl (subEntries_path_ne_nil d _ hd)
  | cons x xs ih =>
      intro d hd
      rcases (mem_subEntries d _).mp hd with ⟨c, hc, heq | ⟨q, hq, heq⟩⟩
      · rw [Prod.mk.injEq, List.cons.injEq] at heq
        obtain ⟨⟨hx, hxs⟩, he⟩ := heq
        subst hx; subst hxs
        rw [he] at hp₂
        exact mem_subEntries_cons d c hc (p₂, e₂) hp₂
      · rw [Prod.mk.injEq, List.cons.injEq] at heq
        obtain ⟨⟨hx, hxs⟩, he⟩ := heq
        have hq' : (xs, e₁) ∈ subEntries c := by
          rw [hxs, he, Prod.mk.eta]; exact hq
        have hstep := mem_subEntries_cons d c hc (xs ++ p₂, e₂) (ih c hq')
        rw [hx]
        simpa using hstep

theorem subEntries_parent (q : List String) (g : Entry) :
    ∀ (d : Entry), (q, g) ∈ subEntries d →
      (q.dropLast = [] ∧ g ∈ d.childrenOf) ∨
      (∃ e, (q.dropLast, e) ∈ subEntries d ∧ g ∈ e.childrenOf) := by
  induction q with
  | nil => intro d hd; exact absurd rfl (subEntries_path_ne_nil d _ hd)
  | cons x xs ih =>
      intro d hd
      rcases (mem_subEntries d _).mp hd with ⟨c, hc, heq | ⟨q', hq', heq⟩⟩
      · rw [Prod.mk.injEq, List.cons.injEq] at heq
        obtain ⟨⟨hx, hxs⟩, he⟩ := heq
        subst hxs; subst he
        exact Or.inl ⟨List.dropLast_single, hc⟩
      · rw [Prod.mk.injEq, List.cons.injEq] at heq
        obtain ⟨⟨hx, hxs⟩, he⟩ := heq
        have hq'' : (xs, g) ∈ subEntries c := by
          rw [hxs, he, Prod.mk.eta]; exact hq'
        have hxs_ne : xs ≠ [] := subEntries_path_ne_nil c (xs, g) hq''
        rw [List.dropLast_cons_of_ne_nil hxs_ne]
        rcases ih c hq'' with ⟨hdl, hgc⟩ | ⟨e, he', hge⟩
        · refine Or.inr ⟨c, ?_, hgc⟩
          rw [hdl, hx]
          exact mem_subEntries_of_child d c hc
        · refine Or.inr ⟨e, ?_, hge⟩
          have := mem_subEntries_cons d c hc (xs.dropLast, e) he'
          rw [hx]
          exact this

theorem hasGitDirChild_iff (e : Entry) :
    hasGitDirChild e = true ↔
      ∃ g ∈ e.childrenOf, g.name = ".git" ∧ g.isDir = true := by
  simp [hasGitDirChild, List.any_eq_true, Bool.and_eq_true, decide_eq_true_eq]

theorem mem_gitDirsUnder (d : Entry) (q : List String) :
    q ∈ gitDirsUnder d ↔
      ∃ g, (q, g) ∈ subEntries d ∧ g.name = ".git" ∧ g.isDir = true := by
  unfold gitDirsUnder
  simp only [List.mem_filterMap]
  constructor
  · rintro ⟨qe, hqe, hif⟩
    by_cases hcond : qe.2.name = ".git" ∧ qe.2.isDir = true
    · rw [if_pos hcond] at hif
      cases hif
      exact ⟨qe.2, by rw [Prod.mk.eta]; exact hqe, hcond⟩
    · rw [if_neg hcond] at hif
      exact absurd hif (by simp)
  · rintro ⟨g, hg, hcond⟩
    exact ⟨(q, g), hg, by rw [if_pos hcond]⟩

theorem mem_scannedRepos (root : Entry) (p : List String) :
    p ∈ scannedRepos root ↔
      ∃ e, (p, e) ∈ subEntries root ∧ hasGitDirChild e = true := by
  unfold scannedRepos
  simp only [List.mem_flatMap, List.mem_filter, List.mem_map]
  constructor
  · rintro ⟨d, ⟨hd_mem, hd_dir⟩, q, hq, rfl⟩
    obtain ⟨g, hg, hname, hdir⟩ := (mem_gitDirsUnder d q).mp hq
    rcases subEntries_parent q g d hg with ⟨hdl, hgchild⟩ | ⟨e, he, hge⟩
    · refine ⟨d, ?_, (hasGitDirChild_iff d).mpr ⟨g, hgchild, hname, hdir⟩⟩
      rw [hdl]
      exact mem_subEntries_of_child root d hd_mem
    · exact ⟨e, mem_subEntries_cons root d hd_mem (q.dropLast, e) he,
        (hasGitDirChild_iff e).mpr ⟨g, hge, hname, hdir⟩⟩
  · rintro ⟨e, he, hgit⟩
    obtain ⟨g, hge, hname, hdir⟩ := (hasGitDirChild_iff e).mp hgit
    rcases (mem_subEntries root _).mp he with ⟨c, hc, heq | ⟨q', hq', heq⟩⟩
    · rw [Prod.mk.injEq] at heq
      obtain ⟨hp, hec⟩ := heq
      have hge' : g ∈ c.childrenOf := by rw [← hec]; exact hge
      refine ⟨c, ⟨hc, isDir_of_mem_childrenOf g c hge'⟩, [g.name],
        (mem_gitDirsUnder c [g.name]).mpr
          ⟨g, mem_subEntries_of_child c g hge', hname, hdir⟩, ?_⟩
      rw [hp, List.dropLast_single]
    · rw [Prod.mk.injEq] at heq
      obtain ⟨hp, hec⟩ := heq
      have hq'' : (q'.1, e) ∈ subEntries c := by
        rw [hec, Prod.mk.eta]; exact hq'
      have hmem : (q'.1 ++ [g.name], g) ∈ subEntries c :=
        subEntries_trans [g.name] g e (mem_subEntries_of_child e g hge) q'.1 c hq''
      refine ⟨c, ⟨hc, isDir_of_mem_subEntries c _ hq''⟩, q'.1 ++ [g.name],
        (mem_gitDirsUnder c _).mpr ⟨g, hmem, hname, hdir⟩, ?_⟩
      rw [List.dropLast_concat, hp]

theorem charListLe_trans (a : List Char) :
    ∀ (b c : List Char), charListLe a b = true → charListLe b c = true →
      charListLe a c = true := by
  induction a with
  | nil => intro b c _ _; rfl
  | cons x xs ih =>
      intro b c hab hbc
      cases b with
      | nil => simp [charListLe] at hab
      | cons y ys =>
          cases c with
          | nil => simp [charListLe] at hbc
          | cons z zs =>
              by_cases hxy : x < y
              · by_cases hyz : y < z
                · simp [charListLe, lt_trans hxy hyz]
                · by_cases hzy : z < y
                  · simp [charListLe, hyz, hzy] at hbc
                  · have hyz_eq : y = z := le_antisymm (not_lt.mp hzy) (not_lt.mp hyz)
                    have hxz : x < z := hyz_eq ▸ hxy
                    simp [charListLe, hxz]
              · by_cases hyx : y < x
                · simp [charListLe, hxy, hyx] at hab
                · have hxy_eq : x = y := le_antisymm (not_lt.mp hyx) (not_lt.mp hxy)
                  simp only [charListLe, if_neg hxy, if_neg hyx] at hab
                  by_cases hyz : y < z
                  · have hxz : x < z := hxy_eq ▸ hyz
                    simp [charListLe, hxz]
                  · by_cases hzy : z < y
                    · simp [charListLe, hyz, hzy] at hbc
                    · have hyz_eq : y = z := le_antisymm (not_lt.mp hzy) (not_lt.mp hyz)
                      simp only [charListLe, if_neg hyz, if_neg hzy] at hbc
                      have hxz1 : ¬ x < z := by
                        rw [hxy_eq, hyz_eq]; exact lt_irrefl z
                      have hxz2 : ¬ z < x := by
                        rw [hxy_eq, hyz_eq]; exact lt_irrefl z
                      simp only [charListLe, if_neg hxz1, if_neg hxz2]
                      exact ih ys zs hab hbc

theorem charListLe_total (a : List Char) :
    ∀ (b : List Char), charListLe a b = true ∨ charListLe b a = true := by
  induction a with
  | nil => intro b; exact Or.inl rfl
  | cons x xs ih =>
      intro b
      cases b with
      | nil => exact Or.inr rfl
      | cons y ys =>
          rcases lt_trichotomy x y with h | h | h
          · left; simp [charListLe, h]
          · subst h
            rcases ih ys with h' | h'
            · left; simp [charListLe, lt_irrefl, h']
            · right; simp [charListLe, lt_irrefl, h']
          · right; simp [charListLe, h]

instance : IsTrans (List String) pathLe :=
  ⟨fun _ _ _ hab hbc => charListLe_trans _ _ _ hab hbc⟩

instance : IsTotal (List String) pathLe :=
  ⟨fun _ _ => charListLe_total _ _⟩

/-- C8: the scan returns exactly the repository roots (directory entries
directly containing a `.git` directory) lying strictly beneath the root
— equivalently, beneath its immediate child directories at any depth —
never the root itself (whose path is `[]`), as a duplicate-free list
sorted by rendered path string. -/
theorem find_and_cache_repositories_correct (root : Entry) :
    (∀ p, p ∈ find_and_cache_repositories root ↔
        ∃ e, (p, e) ∈ subEntries root ∧ hasGitDirChild e = true) ∧
    [] ∉ find_and_cache_repositories root ∧
    (find_and_cache_repositories root).Nodup ∧
    List.Sorted pathLe (find_and_cache_repositories root) := by
  have hperm : (find_and_cache_repositories root).Perm (scannedRepos root).dedup :=
    List.perm_insertionSort pathLe _
  have hmem : ∀ p, p ∈ find_and_cache_repositories root ↔ p ∈ scannedRepos root :=
    fun p => (hperm.mem_iff).trans List.mem_dedup
  refine ⟨?_, ?_, ?_, ?_⟩
  · intro p
    rw [hmem]
    exact mem_scannedRepos root p
  · intro h
    obtain ⟨e, he, _⟩ := (mem_scannedRepos root []).mp ((hmem []).mp h)
    exact subEntries_path_ne_nil root _ he rfl
  · exact hperm.nodup_iff.mpr (List.nodup_dedup _)
  · exact List.sorted_insertionSort pathLe _

end MyGitPuller
